import Mathlib

/-!
Shallow embedding of `src/algorithms_and_data_structures/segment_tree.rs`.

The Rust file implements a flat-array segment tree over `i64` values with
point updates and range-sum queries:

* `segment_tree(elements)` builds the tree,
* `set_nth(tree, i, value)` updates element `i`,
* `nth(tree, i)` reads element `i`,
* `sum(tree, first, last)` returns the sum over the inclusive element
  range `[first, last]`.

Machine integers (`i64`) are modelled as `Int`; no arithmetic in the file
can overflow for the list sizes the claims quantify over, and the Rust
indices (`usize`) are modelled as `Nat`.  Rust's panicking index operator
`tree[i]` is modelled by an explicit bound check returning `Option`
(`none` = panic); writes that are statically in bounds in the source are
modelled with `List.set` (which is a no-op out of bounds, a case that is
proved unreachable where it matters).
-/

namespace SegTree

/-- Model of Rust `usize::next_power_of_two`: the smallest power of two
that is greater than or equal to `n`, with `nextPow2 0 = 1`.  Defined by
structural recursion so that it evaluates inside the kernel. -/
def nextPow2 : Nat → Nat
  | 0 => 1
  | n + 1 => if n + 1 ≤ nextPow2 n then nextPow2 n else 2 * nextPow2 n

theorem nextPow2_pos (n : Nat) : 1 ≤ nextPow2 n := by
  induction n with
  | zero => simp [nextPow2]
  | succ n ih =>
    rw [nextPow2]
    split
    · exact ih
    · omega

theorem le_nextPow2 (n : Nat) : n ≤ nextPow2 n := by
  induction n with
  | zero => simp [nextPow2]
  | succ n ih =>
    rw [nextPow2]
    split
    · assumption
    · have := nextPow2_pos n
      omega

theorem nextPow2_isPow2 (n : Nat) : ∃ m, nextPow2 n = 2 ^ m := by
  induction n with
  | zero => exact ⟨0, rfl⟩
  | succ n ih =>
    obtain ⟨m, hm⟩ := ih
    rw [nextPow2]
    split
    · exact ⟨m, hm⟩
    · exact ⟨m + 1, by rw [hm, pow_succ]; ring⟩

theorem nextPow2_min (n j : Nat) (h : n ≤ 2 ^ j) : nextPow2 n ≤ 2 ^ j := by
  induction n with
  | zero => simpa [nextPow2] using Nat.one_le_two_pow
  | succ n ih =>
    rw [nextPow2]
    split
    · exact ih (by omega)
    · obtain ⟨m, hm⟩ := nextPow2_isPow2 n
      have h1 : 2 ^ m < n + 1 := by omega
      have h2 : 2 ^ m < 2 ^ j := lt_of_lt_of_le h1 h
      have h3 : m < j := (pow_lt_pow_iff_right₀ (a := 2) (by norm_num)).mp h2
      have h4 : m + 1 ≤ j := h3
      calc 2 * nextPow2 n = 2 ^ (m + 1) := by rw [hm, pow_succ]; ring
        _ ≤ 2 ^ j := Nat.pow_le_pow_right (by norm_num) h4

/-! ### Small `List.getD` helpers -/

theorem getD_set_self (l : List Int) (i : Nat) (a : Int) (h : i < l.length) :
    (l.set i a).getD i 0 = a := by
  induction l generalizing i with
  | nil => simp at h
  | cons x xs ih =>
    cases i with
    | zero => rfl
    | succ i => exact ih i (by simpa using h)

theorem getD_set_ne (l : List Int) (i j : Nat) (a : Int) (h : i ≠ j) :
    (l.set i a).getD j 0 = l.getD j 0 := by
  induction l generalizing i j with
  | nil => simp
  | cons x xs ih =>
    cases i with
    | zero =>
      cases j with
      | zero => exact absurd rfl h
      | succ j => rfl
    | succ i =>
      cases j with
      | zero => rfl
      | succ j => exact ih i j (by omega)

theorem getD_eq_zero_of_le (l : List Int) (i : Nat) (h : l.length ≤ i) :
    l.getD i 0 = 0 := by
  induction l generalizing i with
  | nil => simp
  | cons x xs ih =>
    cases i with
    | zero => simp at h
    | succ i => exact ih i (by simpa using h)

theorem getD_replicate (n j : Nat) : (List.replicate n (0 : Int)).getD j 0 = 0 := by
  induction n generalizing j with
  | zero => simp
  | succ n ih =>
    cases j with
    | zero => rfl
    | succ j => exact ih j

/-! ### Build (`segment_tree`) -/

/-- The leaf-copying loop of `segment_tree`:
`for (i, value) in elements.into_iter().enumerate() { tree[n / 2 + i] = value; }`,
started at position `j = n / 2`.  Every write is in bounds in the source. -/
def writeLeaves : List Int → Nat → List Int → List Int
  | t, _, [] => t
  | t, j, v :: vs => writeLeaves (t.set j v) (j + 1) vs

/-- The bottom-up aggregation loop of `segment_tree`:
`for i in (0..(n / 2)).rev() { tree[i] = tree[i * 2 + 1] + tree[i * 2 + 2]; }`.
`buildInternal t k` processes indices `k - 1, k - 2, …, 0`. -/
def buildInternal : List Int → Nat → List Int
  | t, 0 => t
  | t, k + 1 => buildInternal (t.set k (t.getD (k * 2 + 1) 0 + t.getD (k * 2 + 2) 0)) k

/-- Model of Rust `segment_tree`: allocate `n = next_power_of_two(len) * 2 - 1`
zero slots, copy the elements into the leaf slots starting at `n / 2`, then
aggregate the internal nodes from `n / 2 - 1` down to `0`. -/
def segment_tree (elements : List Int) : List Int :=
  let n := nextPow2 elements.length * 2 - 1
  buildInternal (writeLeaves (List.replicate n 0) (n / 2) elements) (n / 2)

theorem length_writeLeaves (vs : List Int) (t : List Int) (j : Nat) :
    (writeLeaves t j vs).length = t.length := by
  induction vs generalizing t j with
  | nil => rfl
  | cons v vs ih => simpa [writeLeaves] using ih (t.set j v) (j + 1)

theorem getD_writeLeaves_of_lt (vs : List Int) (t : List Int) (j e : Nat)
    (he : e < vs.length) (hjt : j + e < t.length) :
    (writeLeaves t j vs).getD (j + e) 0 = vs.getD e 0 := by
  induction vs generalizing t j e with
  | nil => simp at he
  | cons v vs ih =>
    cases e with
    | zero =>
      -- the later writes are at positions ≥ j + 1 and do not touch j
      have untouched : ∀ (ws : List Int) (u : List Int) (j' p : Nat),
          (p < j' ∨ j' + ws.length ≤ p) → (writeLeaves u j' ws).getD p 0 = u.getD p 0 := by
        intro ws
        induction ws with
        | nil => intro u j' p _; rfl
        | cons w ws ihw =>
          intro u j' p hp
          rw [writeLeaves, ihw (u.set j' w) (j' + 1) p (by simp at hp ⊢; omega)]
          exact getD_set_ne u j' p w (by simp at hp; omega)
      rw [writeLeaves, untouched vs (t.set j v) (j + 1) (j + 0) (by omega)]
      simpa using getD_set_self t j v (by omega)
    | succ e =>
      rw [writeLeaves, show j + (e + 1) = (j + 1) + e by omega,
        ih (t.set j v) (j + 1) e (by simpa using he) (by simp; omega)]
      rfl

theorem getD_writeLeaves_of_ge (vs : List Int) (t : List Int) (j p : Nat)
    (hp : p < j ∨ j + vs.length ≤ p) :
    (writeLeaves t j vs).getD p 0 = t.getD p 0 := by
  induction vs generalizing t j with
  | nil => rfl
  | cons v vs ih =>
    rw [writeLeaves, ih (t.set j v) (j + 1) (by simp at hp ⊢; omega)]
    exact getD_set_ne t j p v (by simp at hp; omega)

theorem length_buildInternal (t : List Int) (k : Nat) :
    (buildInternal t k).length = t.length := by
  induction k generalizing t with
  | zero => rfl
  | succ k ih => rw [buildInternal, ih]; simp

theorem getD_buildInternal_of_ge (t : List Int) (k p : Nat) (h : k ≤ p) :
    (buildInternal t k).getD p 0 = t.getD p 0 := by
  induction k generalizing t with
  | zero => rfl
  | succ k ih =>
    rw [buildInternal, ih _ (by omega)]
    exact getD_set_ne t k p _ (by omega)

theorem buildInternal_inv (t : List Int) (k : Nat) (hk : k ≤ t.length) :
    ∀ p < k, (buildInternal t k).getD p 0 =
      (buildInternal t k).getD (2 * p + 1) 0 + (buildInternal t k).getD (2 * p + 2) 0 := by
  induction k generalizing t with
  | zero => intro p hp; omega
  | succ k ih =>
    intro p hp
    rw [buildInternal]
    rcases Nat.lt_or_ge p k with h | h
    · exact ih _ (by simp; omega) p h
    · have hpk : p = k := by omega
      subst hpk
      rw [getD_buildInternal_of_ge _ p p (le_refl p),
        getD_buildInternal_of_ge _ p (2 * p + 1) (by omega),
        getD_buildInternal_of_ge _ p (2 * p + 2) (by omega),
        getD_set_ne t p (2 * p + 1) _ (by omega),
        getD_set_ne t p (2 * p + 2) _ (by omega),
        getD_set_self t p _ (by omega)]
      ring_nf

theorem segment_tree_eq (el : List Int) :
    segment_tree el
      = buildInternal
          (writeLeaves (List.replicate (nextPow2 el.length * 2 - 1) 0)
            ((nextPow2 el.length * 2 - 1) / 2) el)
          ((nextPow2 el.length * 2 - 1) / 2) := rfl

theorem length_segment_tree (el : List Int) :
    (segment_tree el).length = 2 * nextPow2 el.length - 1 := by
  rw [segment_tree_eq, length_buildInternal, length_writeLeaves]
  simp
  omega

theorem getD_segment_tree_leaf (el : List Int) (e : Nat) (he : e < nextPow2 el.length) :
    (segment_tree el).getD (nextPow2 el.length - 1 + e) 0 = el.getD e 0 := by
  have hP := nextPow2_pos el.length
  have hdiv : (nextPow2 el.length * 2 - 1) / 2 = nextPow2 el.length - 1 := by omega
  rw [segment_tree_eq, hdiv,
    getD_buildInternal_of_ge _ _ _ (by omega)]
  rcases Nat.lt_or_ge e el.length with hlt | hge
  · rw [show nextPow2 el.length - 1 + e = nextPow2 el.length - 1 + e from rfl,
      getD_writeLeaves_of_lt el _ (nextPow2 el.length - 1) e hlt (by simp; omega)]
  · rw [getD_writeLeaves_of_ge el _ (nextPow2 el.length - 1) _ (by omega),
      getD_replicate, getD_eq_zero_of_le el e hge]

theorem segment_tree_inv (el : List Int) (p : Nat) (hp : p < nextPow2 el.length - 1) :
    (segment_tree el).getD p 0 =
      (segment_tree el).getD (2 * p + 1) 0 + (segment_tree el).getD (2 * p + 2) 0 := by
  have hP := nextPow2_pos el.length
  have hdiv : (nextPow2 el.length * 2 - 1) / 2 = nextPow2 el.length - 1 := by omega
  rw [segment_tree_eq, hdiv]
  exact buildInternal_inv _ _ (by rw [length_writeLeaves]; simp; omega) p hp

/-! ### Sums over inclusive `Nat` ranges -/

/-- The mathematical range sum the spec talks about: the sum of
`elements[first] … elements[last]` (inclusive), out-of-range positions
reading as `0`. -/
def rangeSum (el : List Int) (first last : Nat) : Int :=
  ∑ j in Finset.Icc first last, el.getD j 0

theorem sum_Icc_split (g : Nat → Int) (a b c : Nat) (h1 : a ≤ b + 1) (h2 : b ≤ c) :
    ∑ j in Finset.Icc a c, g j
      = ∑ j in Finset.Icc a b, g j + ∑ j in Finset.Icc (b + 1) c, g j := by
  rw [← Finset.sum_union]
  · congr 1
    ext x
    simp only [Finset.mem_union, Finset.mem_Icc]
    omega
  · rw [Finset.disjoint_left]
    intro x hx hx'
    simp only [Finset.mem_Icc] at hx hx'
    omega

theorem sum_Icc_clamp_split (g : Nat → Int) (l r mid first last : Nat)
    (h1 : l ≤ mid + 1) (h2 : mid ≤ r) :
    ∑ j in Finset.Icc (max l first) (min r last), g j
      = ∑ j in Finset.Icc (max l first) (min mid last), g j
        + ∑ j in Finset.Icc (max (mid + 1) first) (min r last), g j := by
  rw [← Finset.sum_union]
  · congr 1
    ext x
    simp only [Finset.mem_union, Finset.mem_Icc]
    omega
  · rw [Finset.disjoint_left]
    intro x hx hx'
    simp only [Finset.mem_Icc] at hx hx'
    omega

/-- Value stored at a node of the built tree: if node `i` canonically covers
the element segment `[l, r]` (captured by the arithmetic side conditions,
which hold for the root `(0, 0, P-1)` and are preserved when moving to the
children), then slot `i` of the built tree holds the sum of the covered
elements. -/
theorem node_val (el : List Int) (k : Nat) :
    ∀ i l r : Nat,
      r + 1 - l = 2 ^ k →
      (i + 1) * 2 ^ k = nextPow2 el.length + l →
      r < nextPow2 el.length → l ≤ r →
      (segment_tree el).getD i 0 = ∑ j in Finset.Icc l r, el.getD j 0 := by
  have hP := nextPow2_pos el.length
  induction k with
  | zero =>
    intro i l r hk hrel hr hlr
    simp only [pow_zero] at hk hrel
    have hl : l = r := by omega
    subst hl
    have hi : i = nextPow2 el.length - 1 + l := by omega
    rw [hi, getD_segment_tree_leaf el l (by omega), Finset.Icc_self, Finset.sum_singleton]
  | succ k ih =>
    intro i l r hk hrel hr hlr
    have hs : 0 < 2 ^ k := pow_pos (by norm_num) k
    have hpow : 2 ^ (k + 1) = 2 * 2 ^ k := by rw [pow_succ]; ring
    rw [hpow] at hk hrel
    have hlr' : l < r := by omega
    have hiP : i < nextPow2 el.length - 1 := by
      have h2 : (i + 1) * 2 ≤ (i + 1) * (2 * 2 ^ k) := Nat.mul_le_mul_left _ (by omega)
      rw [hrel] at h2
      omega
    have hL := ih (2 * i + 1) l (l + 2 ^ k - 1) (by omega)
      (by rw [show (2 * i + 1 + 1) * 2 ^ k = (i + 1) * (2 * 2 ^ k) from by ring, hrel])
      (by omega) (by omega)
    have hR := ih (2 * i + 2) (l + 2 ^ k) r (by omega)
      (by rw [show (2 * i + 2 + 1) * 2 ^ k = (i + 1) * (2 * 2 ^ k) + 2 ^ k from by ring, hrel]
          omega)
      (by omega) (by omega)
    rw [segment_tree_inv el i hiP, hL, hR]
    have hsplit := sum_Icc_split (fun j => el.getD j 0) l (l + 2 ^ k - 1) r (by omega) (by omega)
    rw [show l + 2 ^ k - 1 + 1 = l + 2 ^ k from by omega] at hsplit
    exact hsplit.symm

/-! ### Point read (`nth`) and range query (`sum`) -/

/-- Model of the Rust indexing expression `tree[i]`: `none` models the
out-of-bounds panic. -/
def idx (t : List Int) (i : Nat) : Option Int :=
  if i < t.length then some (t.getD i 0) else none

/-- Model of Rust `nth`: `tree[tree.len() / 2 + i]`. -/
def nth (tree : List Int) (i : Nat) : Option Int :=
  idx tree (tree.length / 2 + i)

/-- Model of the inner recursive function `f` of Rust `sum`.  The node `i`
covers the inclusive element segment `[l, r]`; disjoint queries contribute
`0`, fully covered nodes return `tree[i]`, and partial overlaps recurse
into both children. -/
def sumAux (tree : List Int) (i l r first last : Nat) : Option Int :=
  if _h1 : r < first ∨ last < l then some 0
  else if _h2 : first ≤ l ∧ r ≤ last then idx tree i
  else
    Option.bind (sumAux tree (i * 2 + 1) l ((l + r) / 2) first last) fun a =>
      Option.bind (sumAux tree (i * 2 + 2) ((l + r) / 2 + 1) r first last) fun b =>
        some (a + b)
termination_by r - l
decreasing_by
  all_goals (simp_wf; omega)

/-- Model of Rust `sum`: `f(tree, 0, 0, tree.len() / 2, first, last)`. -/
def sum (tree : List Int) (first last : Nat) : Option Int :=
  sumAux tree 0 0 (tree.length / 2) first last

/-- Fuel-indexed variant of `sumAux`, used to state termination of the
recursive descent: `none` on fuel exhaustion. -/
def sumAuxF (tree : List Int) : Nat → Nat → Nat → Nat → Nat → Nat → Option Int
  | 0, _, _, _, _, _ => none
  | fuel + 1, i, l, r, first, last =>
    if r < first ∨ last < l then some 0
    else if first ≤ l ∧ r ≤ last then idx tree i
    else
      Option.bind (sumAuxF tree fuel (i * 2 + 1) l ((l + r) / 2) first last) fun a =>
        Option.bind (sumAuxF tree fuel (i * 2 + 2) ((l + r) / 2 + 1) r first last) fun b =>
          some (a + b)

theorem sumAux_correct (el : List Int) (first last : Nat) (k : Nat) :
    ∀ i l r : Nat,
      r + 1 - l = 2 ^ k →
      (i + 1) * 2 ^ k = nextPow2 el.length + l →
      r < nextPow2 el.length → l ≤ r →
      sumAux (segment_tree el) i l r first last
        = some (∑ j in Finset.Icc (max l first) (min r last), el.getD j 0) := by
  have hP := nextPow2_pos el.length
  have hlen := length_segment_tree el
  induction k with
  | zero =>
    intro i l r hk hrel hr hlr
    simp only [pow_zero] at hk hrel
    have hl : l = r := by omega
    subst hl
    rw [sumAux]
    by_cases h1 : l < first ∨ last < l
    · rw [dif_pos h1, Finset.Icc_eq_empty (by omega), Finset.sum_empty]
    · rw [dif_neg h1, dif_pos (show first ≤ l ∧ l ≤ last by omega), idx,
        if_pos (show i < (segment_tree el).length by omega)]
      have hi : i = nextPow2 el.length - 1 + l := by omega
      rw [hi, getD_segment_tree_leaf el l (by omega)]
      rw [show max l first = l from by omega, show min l last = l from by omega,
        Finset.Icc_self, Finset.sum_singleton]
  | succ k ih =>
    intro i l r hk hrel hr hlr
    have hs : 0 < 2 ^ k := pow_pos (by norm_num) k
    have hpow : 2 ^ (k + 1) = 2 * 2 ^ k := by rw [pow_succ]; ring
    have hk' := hk; have hrel' := hrel
    rw [hpow] at hk' hrel'
    have hlr' : l < r := by omega
    rw [sumAux]
    by_cases h1 : r < first ∨ last < l
    · rw [dif_pos h1, Finset.Icc_eq_empty (by omega), Finset.sum_empty]
    · rw [dif_neg h1]
      by_cases h2 : first ≤ l ∧ r ≤ last
      · rw [dif_pos h2, idx, if_pos (show i < (segment_tree el).length by
          have h3 : i + 1 ≤ (i + 1) * (2 * 2 ^ k) := Nat.le_mul_of_pos_right _ (by omega)
          rw [hrel'] at h3
          omega)]
        rw [node_val el (k + 1) i l r hk hrel hr hlr,
          show max l first = l from by omega, show min r last = r from by omega]
      · rw [dif_neg h2]
        have hmid : (l + r) / 2 = l + 2 ^ k - 1 := by omega
        have hL := ih (i * 2 + 1) l ((l + r) / 2)
          (by omega)
          (by rw [show (i * 2 + 1 + 1) * 2 ^ k = (i + 1) * (2 * 2 ^ k) from by ring, hrel'])
          (by omega) (by omega)
        have hR := ih (i * 2 + 2) ((l + r) / 2 + 1) r
          (by omega)
          (by rw [hmid, show (i * 2 + 2 + 1) * 2 ^ k = (i + 1) * (2 * 2 ^ k) + 2 ^ k from by ring,
                hrel']
              omega)
          (by omega) (by omega)
        rw [hL, hR, Option.some_bind, Option.some_bind]
        rw [hmid, show l + 2 ^ k - 1 + 1 = l + 2 ^ k from by omega]
        have hsplit := sum_Icc_clamp_split (fun j => el.getD j 0) l r (l + 2 ^ k - 1)
          first last (by omega) (by omega)
        rw [show l + 2 ^ k - 1 + 1 = l + 2 ^ k from by omega] at hsplit
        rw [← hsplit]

/-- Top-level correctness of `sum` on a built tree, for arbitrary query
bounds: the result is the sum over the query range clamped to the padded
leaf range `[0, P - 1]`. -/
theorem sum_correct (el : List Int) (first last : Nat) :
    sum (segment_tree el) first last
      = some (∑ j in Finset.Icc first (min (nextPow2 el.length - 1) last), el.getD j 0) := by
  have hP := nextPow2_pos el.length
  obtain ⟨m, hm⟩ := nextPow2_isPow2 el.length
  have hlen := length_segment_tree el
  have hdiv : (segment_tree el).length / 2 = nextPow2 el.length - 1 := by omega
  rw [sum, hdiv, sumAux_correct el first last m 0 0 (nextPow2 el.length - 1)
    (by rw [← hm]; omega) (by rw [← hm]; omega) (by omega) (by omega)]
  rw [Nat.zero_max]

theorem sumAuxF_eq_sumAux (tree : List Int) (first last : Nat) :
    ∀ fuel i l r, r - l < fuel →
      sumAuxF tree fuel i l r first last = sumAux tree i l r first last := by
  intro fuel
  induction fuel with
  | zero => intro i l r h; omega
  | succ fuel ih =>
    intro i l r h
    rw [sumAuxF, sumAux]
    by_cases h1 : r < first ∨ last < l
    · rw [if_pos h1, dif_pos h1]
    · rw [if_neg h1, dif_neg h1]
      by_cases h2 : first ≤ l ∧ r ≤ last
      · rw [if_pos h2, dif_pos h2]
      · have hlr : l < r := by omega
        rw [if_neg h2, dif_neg h2, ih _ _ _ (by omega), ih _ _ _ (by omega)]

/-! ### Point update (`set_nth`) -/

/-- Model of the `while i > 0` loop of Rust `set_nth`: move to the parent
`(i - 1) / 2` and recompute it from its two children, until the root has
been recomputed.  The bound check models the panic of the child reads
(`2 * p + 1 < 2 * p + 2`, so a single check on the larger child suffices);
the parent write `p < k ≤ tree.len()` is always in bounds in the source. -/
def set_nth_loop (t : List Int) (k : Nat) : Option (List Int) :=
  if _hk : k = 0 then some t
  else
    if 2 * ((k - 1) / 2) + 2 < t.length then
      set_nth_loop
        (t.set ((k - 1) / 2)
          (t.getD (2 * ((k - 1) / 2) + 1) 0 + t.getD (2 * ((k - 1) / 2) + 2) 0))
        ((k - 1) / 2)
    else none
termination_by k
decreasing_by simp_wf; omega

/-- Model of Rust `set_nth`: write `value` into leaf slot
`tree.len() / 2 + i` (panic if out of bounds), then walk upward. -/
def set_nth (tree : List Int) (i : Nat) (value : Int) : Option (List Int) :=
  if tree.length / 2 + i < tree.length then
    set_nth_loop (tree.set (tree.length / 2 + i) value) (tree.length / 2 + i)
  else none

/-- `isAnc a k` holds when slot `a` is on the parent path from slot `k` to
the root (including `k` itself): exactly the slots `set_nth` may write when
the updated leaf is `k`. -/
def isAnc (a : Nat) (k : Nat) : Bool :=
  if a = k then true
  else if _h : k = 0 then false
  else isAnc a ((k - 1) / 2)
termination_by k
decreasing_by simp_wf; omega

theorem isAnc_refl (a : Nat) : isAnc a a = true := by
  rw [isAnc]; simp

theorem isAnc_zero (q : Nat) (h : q ≠ 0) : isAnc q 0 = false := by
  rw [isAnc]; simp [h]

theorem isAnc_unfold_ne (a k : Nat) (h1 : a ≠ k) (h2 : k ≠ 0) :
    isAnc a k = isAnc a ((k - 1) / 2) := by
  conv_lhs => rw [isAnc]
  simp [h1, h2]

theorem isAnc_le : ∀ (k a : Nat), isAnc a k = true → a ≤ k := by
  intro k
  induction k using Nat.strong_induction_on with
  | _ k ih =>
    intro a h
    by_cases hak : a = k
    · omega
    · by_cases hk : k = 0
      · rw [hk, isAnc_zero a (by omega)] at h; simp at h
      · rw [isAnc_unfold_ne a k hak hk] at h
        have := ih ((k - 1) / 2) (by omega) a h
        omega

theorem isAnc_false_of_gt (a k : Nat) (h : k < a) : isAnc a k = false := by
  by_cases hc : isAnc a k = true
  · have := isAnc_le k a hc; omega
  · simpa using hc

theorem set_nth_loop_zero (t : List Int) : set_nth_loop t 0 = some t := by
  rw [set_nth_loop]; simp

theorem set_nth_loop_step (t : List Int) (k : Nat) (hk : k ≠ 0)
    (hin : 2 * ((k - 1) / 2) + 2 < t.length) :
    set_nth_loop t k
      = set_nth_loop
          (t.set ((k - 1) / 2)
            (t.getD (2 * ((k - 1) / 2) + 1) 0 + t.getD (2 * ((k - 1) / 2) + 2) 0))
          ((k - 1) / 2) := by
  conv_lhs => rw [set_nth_loop]
  rw [dif_neg hk, if_pos hin]

theorem set_nth_loop_some : ∀ (k : Nat) (t : List Int), t.length % 2 = 1 → k < t.length →
    ∃ t', set_nth_loop t k = some t' ∧ t'.length = t.length := by
  intro k
  induction k using Nat.strong_induction_on with
  | _ k ih =>
    intro t hodd hk
    by_cases h0 : k = 0
    · subst h0
      exact ⟨t, set_nth_loop_zero t, rfl⟩
    · have hin : 2 * ((k - 1) / 2) + 2 < t.length := by omega
      rw [set_nth_loop_step t k h0 hin]
      obtain ⟨t', h1, h2⟩ := ih ((k - 1) / 2) (by omega)
        (t.set ((k - 1) / 2)
          (t.getD (2 * ((k - 1) / 2) + 1) 0 + t.getD (2 * ((k - 1) / 2) + 2) 0))
        (by simpa using hodd) (by simp; omega)
      exact ⟨t', h1, by rwa [List.length_set] at h2⟩

theorem set_nth_loop_frame : ∀ (k : Nat) (t t' : List Int), k < t.length →
    set_nth_loop t k = some t' →
    ∀ j, (j = k ∨ isAnc j k = false) → t'.getD j 0 = t.getD j 0 := by
  intro k
  induction k using Nat.strong_induction_on with
  | _ k ih =>
    intro t t' hk hloop j hj
    by_cases h0 : k = 0
    · subst h0
      rw [set_nth_loop_zero] at hloop
      cases hloop
      rfl
    · by_cases hin : 2 * ((k - 1) / 2) + 2 < t.length
      · rw [set_nth_loop_step t k h0 hin] at hloop
        have hjp : j = (k - 1) / 2 ∨ isAnc j ((k - 1) / 2) = false := by
          rcases hj with hj | hj
          · subst hj
            exact Or.inr (isAnc_false_of_gt j ((j - 1) / 2) (by omega))
          · by_cases hjp' : j = (k - 1) / 2
            · exact Or.inl hjp'
            · right
              by_cases hjk : j = k
              · rw [hjk, isAnc_refl] at hj; simp at hj
              · rwa [isAnc_unfold_ne j k hjk h0] at hj
        have step := ih ((k - 1) / 2) (by omega)
          (t.set ((k - 1) / 2)
            (t.getD (2 * ((k - 1) / 2) + 1) 0 + t.getD (2 * ((k - 1) / 2) + 2) 0))
          t' (by simp; omega) hloop j hjp
        rw [step]
        apply getD_set_ne
        rcases hj with hj | hj
        · omega
        · intro hcontra
          have htrue : isAnc j k = true := by
            rw [isAnc_unfold_ne j k (by omega) h0, hcontra, isAnc_refl]
          rw [htrue] at hj
          cases hj
      · rw [set_nth_loop] at hloop
        rw [dif_neg h0, if_neg hin] at hloop
        cases hloop

theorem set_nth_loop_inv : ∀ (k : Nat) (t t' : List Int), t.length % 2 = 1 → k < t.length →
    set_nth_loop t k = some t' →
    (∀ q, q < t.length / 2 → (q = k ∨ isAnc q k = false) →
      t.getD q 0 = t.getD (2 * q + 1) 0 + t.getD (2 * q + 2) 0) →
    ∀ q, q < t.length / 2 →
      t'.getD q 0 = t'.getD (2 * q + 1) 0 + t'.getD (2 * q + 2) 0 := by
  intro k
  induction k using Nat.strong_induction_on with
  | _ k ih =>
    intro t t' hodd hk hloop hpre q hq
    by_cases h0 : k = 0
    · subst h0
      rw [set_nth_loop_zero] at hloop
      cases hloop
      apply hpre q hq
      by_cases hq0 : q = 0
      · exact Or.inl hq0
      · exact Or.inr (isAnc_zero q hq0)
    · have hin : 2 * ((k - 1) / 2) + 2 < t.length := by omega
      rw [set_nth_loop_step t k h0 hin] at hloop
      have hp : (k - 1) / 2 < t.length := by omega
      refine ih ((k - 1) / 2) (by omega) _ t' (by simpa using hodd) (by simp; omega) hloop
        ?_ q (by simpa using hq)
      intro q' hq' hcase
      rcases hcase with hq'p | hq'anc
      · subst hq'p
        rw [getD_set_self t _ _ hp,
          getD_set_ne t _ _ _ (by omega),
          getD_set_ne t _ _ _ (by omega)]
      · have hq'ne : q' ≠ (k - 1) / 2 := by
          intro hcontra
          rw [hcontra, isAnc_refl] at hq'anc
          simp at hq'anc
        have hchild1 : 2 * q' + 1 ≠ (k - 1) / 2 := by
          intro hcontra
          have hpne : (k - 1) / 2 ≠ 0 := by omega
          rw [isAnc_unfold_ne q' ((k - 1) / 2) hq'ne hpne] at hq'anc
          rw [show ((k - 1) / 2 - 1) / 2 = q' from by omega, isAnc_refl] at hq'anc
          simp at hq'anc
        have hchild2 : 2 * q' + 2 ≠ (k - 1) / 2 := by
          intro hcontra
          have hpne : (k - 1) / 2 ≠ 0 := by omega
          rw [isAnc_unfold_ne q' ((k - 1) / 2) hq'ne hpne] at hq'anc
          rw [show ((k - 1) / 2 - 1) / 2 = q' from by omega, isAnc_refl] at hq'anc
          simp at hq'anc
        have htq' : t.getD q' 0 = t.getD (2 * q' + 1) 0 + t.getD (2 * q' + 2) 0 := by
          apply hpre q' (by simpa using hq')
          by_cases hq'k : q' = k
          · exact Or.inl hq'k
          · right
            rwa [isAnc_unfold_ne q' k hq'k h0]
        rw [getD_set_ne t _ _ _ (Ne.symm hq'ne),
          getD_set_ne t _ _ _ (fun h => hchild1 h.symm),
          getD_set_ne t _ _ _ (fun h => hchild2 h.symm)]
        exact htq'

/-- Full behaviour of `set_nth` on an odd-length tree with a valid slot:
it succeeds, preserves the length, stores the value in the leaf slot,
leaves every slot off the leaf-to-root path unchanged, and restores the
aggregate invariant at every internal index. -/
theorem set_nth_spec (t : List Int) (i : Nat) (v : Int)
    (hodd : t.length % 2 = 1) (hi : t.length / 2 + i < t.length) :
    ∃ t', set_nth t i v = some t' ∧ t'.length = t.length ∧
      t'.getD (t.length / 2 + i) 0 = v ∧
      (∀ j, isAnc j (t.length / 2 + i) = false → t'.getD j 0 = t.getD j 0) ∧
      ((∀ q, q < t.length / 2 →
          t.getD q 0 = t.getD (2 * q + 1) 0 + t.getD (2 * q + 2) 0) →
        ∀ q, q < t.length / 2 →
          t'.getD q 0 = t'.getD (2 * q + 1) 0 + t'.getD (2 * q + 2) 0) := by
  have hlen0 : (t.set (t.length / 2 + i) v).length = t.length := by simp
  obtain ⟨t', hloop, hlen⟩ := set_nth_loop_some (t.length / 2 + i)
    (t.set (t.length / 2 + i) v) (by simpa using hodd) (by simp; omega)
  refine ⟨t', ?_, by omega, ?_, ?_, ?_⟩
  · rw [set_nth, if_pos hi]
    exact hloop
  · rw [set_nth_loop_frame _ _ t' (by simp; omega) hloop _ (Or.inl rfl)]
    exact getD_set_self t _ v hi
  · intro j hj
    have hjk : j ≠ t.length / 2 + i := by
      intro hcontra
      rw [hcontra, isAnc_refl] at hj
      simp at hj
    rw [set_nth_loop_frame _ _ t' (by simp; omega) hloop _ (Or.inr hj)]
    exact getD_set_ne t _ _ _ (Ne.symm hjk)
  · intro hpre q hq
    refine set_nth_loop_inv (t.length / 2 + i) (t.set (t.length / 2 + i) v) t'
      (by simpa using hodd) (by simp; omega) hloop ?_ q (by simpa using hq)
    intro q' hq0 hcase
    have hq' : q' < t.length / 2 := by simpa using hq0
    have hqk : q' ≠ t.length / 2 + i := by omega
    have hchild1 : 2 * q' + 1 ≠ t.length / 2 + i := by
      intro hcontra
      rcases hcase with h | h
      · omega
      · have hkne : t.length / 2 + i ≠ 0 := by omega
        rw [isAnc_unfold_ne q' _ hqk hkne,
          show (t.length / 2 + i - 1) / 2 = q' from by omega, isAnc_refl] at h
        cases h
    have hchild2 : 2 * q' + 2 ≠ t.length / 2 + i := by
      intro hcontra
      rcases hcase with h | h
      · omega
      · have hkne : t.length / 2 + i ≠ 0 := by omega
        rw [isAnc_unfold_ne q' _ hqk hkne,
          show (t.length / 2 + i - 1) / 2 = q' from by omega, isAnc_refl] at h
        cases h
    rw [getD_set_ne t _ _ _ (Ne.symm hqk),
      getD_set_ne t _ _ _ (fun h => hchild1 h.symm),
      getD_set_ne t _ _ _ (fun h => hchild2 h.symm)]
    exact hpre q' hq'

/-- A sequence of `set_nth` operations applied in order; `none` if any of
them panics. -/
def applyOps (t : List Int) : List (Nat × Int) → Option (List Int)
  | [] => some t
  | op :: ops => Option.bind (set_nth t op.1 op.2) fun t2 => applyOps t2 ops

theorem applyOps_some (ops : List (Nat × Int)) :
    ∀ (t : List Int), t.length % 2 = 1 →
      (∀ op ∈ ops, t.length / 2 + op.1 < t.length) →
      ∃ t', applyOps t ops = some t' ∧ t'.length = t.length := by
  induction ops with
  | nil => intro t _ _; exact ⟨t, rfl, rfl⟩
  | cons op ops ih =>
    intro t hodd hops
    obtain ⟨t1, hset, hlen1, -, -, -⟩ := set_nth_spec t op.1 op.2 hodd
      (hops op (by simp))
    obtain ⟨t', happ, hlen'⟩ := ih t1 (by omega)
      (by intro op' hop'; rw [hlen1]; exact hops op' (by simp [hop']))
    exact ⟨t', by rw [applyOps, hset, Option.some_bind, happ], by omega⟩

/-! ### Claim theorems -/

/-- C1: for every input sequence of `n ≥ 1` integers and every pair of
element indices `first ≤ last < n`, `sum` on the tree built by
`segment_tree` returns the sum of `elements[first] … elements[last]`
inclusive; in particular, on the tree built from `[3,1,4,1,5,9,2,6]`,
`sum (i-2) i` for `i` in `2..8` yields `[8,6,10,15,16,17]`. -/
theorem sum_range_correct :
    (∀ (elements : List Int) (first last : Nat), first ≤ last → last < elements.length →
      sum (segment_tree elements) first last = some (rangeSum elements first last))
    ∧ [sum (segment_tree [3, 1, 4, 1, 5, 9, 2, 6]) 0 2,
        sum (segment_tree [3, 1, 4, 1, 5, 9, 2, 6]) 1 3,
        sum (segment_tree [3, 1, 4, 1, 5, 9, 2, 6]) 2 4,
        sum (segment_tree [3, 1, 4, 1, 5, 9, 2, 6]) 3 5,
        sum (segment_tree [3, 1, 4, 1, 5, 9, 2, 6]) 4 6,
        sum (segment_tree [3, 1, 4, 1, 5, 9, 2, 6]) 5 7]
      = [some 8, some 6, some 10, some 15, some 16, some 17] := by
  have key : ∀ (elements : List Int) (first last : Nat), first ≤ last →
      last < elements.length →
      sum (segment_tree elements) first last = some (rangeSum elements first last) := by
    intro el first last hfl hl
    have hle := le_nextPow2 el.length
    rw [sum_correct el first last, rangeSum,
      show min (nextPow2 el.length - 1) last = last from by omega]
  refine ⟨key, ?_⟩
  rw [key [3, 1, 4, 1, 5, 9, 2, 6] 0 2 (by decide) (by decide),
    key [3, 1, 4, 1, 5, 9, 2, 6] 1 3 (by decide) (by decide),
    key [3, 1, 4, 1, 5, 9, 2, 6] 2 4 (by decide) (by decide),
    key [3, 1, 4, 1, 5, 9, 2, 6] 3 5 (by decide) (by decide),
    key [3, 1, 4, 1, 5, 9, 2, 6] 4 6 (by decide) (by decide),
    key [3, 1, 4, 1, 5, 9, 2, 6] 5 7 (by decide) (by decide)]
  decide

/-- Witness for C1 at a concrete input. -/
theorem sum_range_correct_witness :
    (1 : Nat) ≤ 3 ∧ (3 : Nat) < ([3, 1, 4, 1, 5, 9, 2, 6] : List Int).length ∧
      sum (segment_tree [3, 1, 4, 1, 5, 9, 2, 6]) 1 3
        = some (rangeSum [3, 1, 4, 1, 5, 9, 2, 6] 1 3) :=
  ⟨by decide, by decide,
    sum_range_correct.1 [3, 1, 4, 1, 5, 9, 2, 6] 1 3 (by decide) (by decide)⟩

/-- C2: `segment_tree` on `n ≥ 1` elements returns a vector of length
`N = 2P - 1` with `P` the smallest power of two `≥ n`; leaf slot
`N/2 + i` holds `elements[i]` for `i < n`, leaf slots `N/2 + n … N - 1`
hold `0`, and every internal index `i < N/2` satisfies
`tree[i] = tree[2i+1] + tree[2i+2]`; in particular the tree of
`[3,1,4,1,5,9,2,6]` is `[31,9,22,4,5,14,8,3,1,4,1,5,9,2,6]`. -/
theorem build_correct :
    (∀ elements : List Int, 1 ≤ elements.length →
      (segment_tree elements).length = 2 * nextPow2 elements.length - 1 ∧
      (∃ m, nextPow2 elements.length = 2 ^ m) ∧
      elements.length ≤ nextPow2 elements.length ∧
      (∀ j, elements.length ≤ 2 ^ j → nextPow2 elements.length ≤ 2 ^ j) ∧
      (∀ i, i < elements.length →
        (segment_tree elements).getD ((2 * nextPow2 elements.length - 1) / 2 + i) 0
          = elements.getD i 0) ∧
      (∀ i, elements.length ≤ i → i < nextPow2 elements.length →
        (segment_tree elements).getD ((2 * nextPow2 elements.length - 1) / 2 + i) 0 = 0) ∧
      (∀ i, i < (2 * nextPow2 elements.length - 1) / 2 →
        (segment_tree elements).getD i 0
          = (segment_tree elements).getD (2 * i + 1) 0
            + (segment_tree elements).getD (2 * i + 2) 0))
    ∧ segment_tree [3, 1, 4, 1, 5, 9, 2, 6]
        = [31, 9, 22, 4, 5, 14, 8, 3, 1, 4, 1, 5, 9, 2, 6] := by
  refine ⟨?_, by decide⟩
  intro el h1
  have hP := nextPow2_pos el.length
  have hle := le_nextPow2 el.length
  have hdiv : (2 * nextPow2 el.length - 1) / 2 = nextPow2 el.length - 1 := by omega
  refine ⟨length_segment_tree el, nextPow2_isPow2 el.length, hle,
    fun j hj => nextPow2_min el.length j hj, ?_, ?_, ?_⟩
  · intro i hi
    rw [hdiv, getD_segment_tree_leaf el i (by omega)]
  · intro i hni hiP
    rw [hdiv, getD_segment_tree_leaf el i hiP, getD_eq_zero_of_le el i hni]
  · intro i hi
    rw [hdiv] at hi
    exact segment_tree_inv el i hi

/-- Witness for C2 at a concrete input (n = 5, not a power of two). -/
theorem build_correct_witness :
    (1 : Nat) ≤ ([3, 1, 4, 1, 5] : List Int).length ∧
      ((segment_tree [3, 1, 4, 1, 5]).length
          = 2 * nextPow2 ([3, 1, 4, 1, 5] : List Int).length - 1 ∧
        (∃ m, nextPow2 ([3, 1, 4, 1, 5] : List Int).length = 2 ^ m) ∧
        ([3, 1, 4, 1, 5] : List Int).length
          ≤ nextPow2 ([3, 1, 4, 1, 5] : List Int).length ∧
        (∀ j, ([3, 1, 4, 1, 5] : List Int).length ≤ 2 ^ j →
          nextPow2 ([3, 1, 4, 1, 5] : List Int).length ≤ 2 ^ j) ∧
        (∀ i, i < ([3, 1, 4, 1, 5] : List Int).length →
          (segment_tree [3, 1, 4, 1, 5]).getD
              ((2 * nextPow2 ([3, 1, 4, 1, 5] : List Int).length - 1) / 2 + i) 0
            = ([3, 1, 4, 1, 5] : List Int).getD i 0) ∧
        (∀ i, ([3, 1, 4, 1, 5] : List Int).length ≤ i →
          i < nextPow2 ([3, 1, 4, 1, 5] : List Int).length →
          (segment_tree [3, 1, 4, 1, 5]).getD
              ((2 * nextPow2 ([3, 1, 4, 1, 5] : List Int).length - 1) / 2 + i) 0 = 0) ∧
        (∀ i, i < (2 * nextPow2 ([3, 1, 4, 1, 5] : List Int).length - 1) / 2 →
          (segment_tree [3, 1, 4, 1, 5]).getD i 0
            = (segment_tree [3, 1, 4, 1, 5]).getD (2 * i + 1) 0
              + (segment_tree [3, 1, 4, 1, 5]).getD (2 * i + 2) 0)) :=
  ⟨by decide, build_correct.1 [3, 1, 4, 1, 5] (by decide)⟩

/-- C3: on any odd-length tree (the data-model shape `N = 2P - 1`)
satisfying the aggregate invariant at every internal index, `set_nth` on a
valid leaf slot succeeds, stores the value in leaf slot `N/2 + i`, and the
aggregate invariant again holds at every internal index (the root, index
`0`, included). -/
theorem set_nth_preserves_invariant (t : List Int) (i : Nat) (v : Int)
    (hodd : t.length % 2 = 1)
    (hi : t.length / 2 + i < t.length)
    (hinv : ∀ q, q < t.length / 2 →
      t.getD q 0 = t.getD (2 * q + 1) 0 + t.getD (2 * q + 2) 0) :
    ∃ t', set_nth t i v = some t' ∧
      t'.getD (t.length / 2 + i) 0 = v ∧
      ∀ q, q < t.length / 2 →
        t'.getD q 0 = t'.getD (2 * q + 1) 0 + t'.getD (2 * q + 2) 0 := by
  obtain ⟨t', h1, -, h3, -, h5⟩ := set_nth_spec t i v hodd hi
  exact ⟨t', h1, h3, h5 hinv⟩

/-- Witness for C3 at a concrete input. -/
theorem set_nth_preserves_invariant_witness :
    (([31, 9, 22, 4, 5, 14, 8, 3, 1, 4, 1, 5, 9, 2, 6] : List Int).length % 2 = 1) ∧
      (([31, 9, 22, 4, 5, 14, 8, 3, 1, 4, 1, 5, 9, 2, 6] : List Int).length / 2 + 2
        < ([31, 9, 22, 4, 5, 14, 8, 3, 1, 4, 1, 5, 9, 2, 6] : List Int).length) ∧
      (∀ q, q < ([31, 9, 22, 4, 5, 14, 8, 3, 1, 4, 1, 5, 9, 2, 6] : List Int).length / 2 →
        ([31, 9, 22, 4, 5, 14, 8, 3, 1, 4, 1, 5, 9, 2, 6] : List Int).getD q 0
          = ([31, 9, 22, 4, 5, 14, 8, 3, 1, 4, 1, 5, 9, 2, 6] : List Int).getD (2 * q + 1) 0
            + ([31, 9, 22, 4, 5, 14, 8, 3, 1, 4, 1, 5, 9, 2, 6] : List Int).getD (2 * q + 2) 0) ∧
      (∃ t', set_nth [31, 9, 22, 4, 5, 14, 8, 3, 1, 4, 1, 5, 9, 2, 6] 2 (-42) = some t' ∧
        t'.getD (([31, 9, 22, 4, 5, 14, 8, 3, 1, 4, 1, 5, 9, 2, 6] : List Int).length / 2 + 2) 0
          = -42 ∧
        ∀ q, q < ([31, 9, 22, 4, 5, 14, 8, 3, 1, 4, 1, 5, 9, 2, 6] : List Int).length / 2 →
          t'.getD q 0 = t'.getD (2 * q + 1) 0 + t'.getD (2 * q + 2) 0) :=
  ⟨by decide, by decide, by decide,
    set_nth_preserves_invariant [31, 9, 22, 4, 5, 14, 8, 3, 1, 4, 1, 5, 9, 2, 6] 2 (-42)
      (by decide) (by decide) (by decide)⟩

/-- C4 counterexample: on the tree built from `[3,1,4,1,5]` (`n = 5`,
`P = 8`), `nth` with the out-of-range element index `5` returns the
padding value `0` instead of failing, `set_nth` at index `5` succeeds, and
`sum` with `first > last` returns `0` — none of these calls fails. -/
theorem index_contract_counterexample :
    nth (segment_tree [3, 1, 4, 1, 5]) 5 = some 0 ∧
      (set_nth (segment_tree [3, 1, 4, 1, 5]) 5 7).isSome = true ∧
      sum (segment_tree [3, 1, 4, 1, 5]) 3 1 = some 0 := by
  refine ⟨by decide, ?_, ?_⟩
  · obtain ⟨t', h1, -, -, -, -⟩ :=
      set_nth_spec (segment_tree [3, 1, 4, 1, 5]) 5 7 (by decide) (by decide)
    rw [h1]
    rfl
  · rw [sum_correct [3, 1, 4, 1, 5] 3 1]
    decide

/-- C4 amended: `nth` and `set_nth` fail (model of the Rust panic) exactly
when the addressed slot `N/2 + i` lies outside the buffer, i.e. when
`i ≥ P`; for an element index in the padding range `n ≤ i < P` they
silently read or write the padding leaf (`nth` returns `0`), and `sum`
with `first > last` silently returns `0`. -/
theorem index_bounds_behavior :
    ∀ (elements : List Int) (i : Nat) (v : Int),
      (nextPow2 elements.length ≤ i →
        nth (segment_tree elements) i = none ∧
          set_nth (segment_tree elements) i v = none) ∧
      (elements.length ≤ i → i < nextPow2 elements.length →
        nth (segment_tree elements) i = some 0 ∧
          (set_nth (segment_tree elements) i v).isSome = true) ∧
      (∀ first last : Nat, last < first →
        sum (segment_tree elements) first last = some 0) := by
  intro el i v
  have hP := nextPow2_pos el.length
  have hlen := length_segment_tree el
  have hdiv : (segment_tree el).length / 2 = nextPow2 el.length - 1 := by omega
  refine ⟨?_, ?_, ?_⟩
  · intro hge
    constructor
    · rw [nth, idx, if_neg (by omega)]
    · rw [set_nth, if_neg (by omega)]
  · intro hni hiP
    constructor
    · rw [nth, idx, if_pos (by omega), hdiv,
        getD_segment_tree_leaf el i hiP, getD_eq_zero_of_le el i hni]
    · obtain ⟨t', h1, -, -, -, -⟩ := set_nth_spec (segment_tree el) i v (by omega) (by omega)
      rw [h1]
      rfl
  · intro first last hfl
    rw [sum_correct el first last, Finset.Icc_eq_empty (by omega), Finset.sum_empty]

/-- Witness for the amended C4 at a concrete input. -/
theorem index_bounds_behavior_witness :
    nextPow2 ([3, 1, 4, 1, 5] : List Int).length ≤ 9 ∧
      nth (segment_tree [3, 1, 4, 1, 5]) 9 = none ∧
      set_nth (segment_tree [3, 1, 4, 1, 5]) 9 7 = none :=
  ⟨by decide, (index_bounds_behavior [3, 1, 4, 1, 5] 9 7).1 (by decide)⟩

/-- C5 counterexample: `segment_tree` on the empty sequence produces the
buffer `[0]` — it does not fail and does not reject the input. -/
theorem empty_build_counterexample : segment_tree ([] : List Int) = [0] := by decide

/-- C5 amended: building from zero elements is accepted:
`next_power_of_two(0) = 1`, so the result is the single-slot zero buffer
`[0]` of length `2 * 1 - 1 = 1`. -/
theorem empty_build_behavior :
    nextPow2 ([] : List Int).length = 1 ∧
      (segment_tree ([] : List Int)).length = 2 * 1 - 1 ∧
      segment_tree ([] : List Int) = [0] := by
  refine ⟨rfl, ?_, ?_⟩ <;> decide

/-- C6: on a tree built from `n ≥ 1` elements, after any sequence of valid
`set_nth` operations, for every element index `i < n` and value `x`,
`set_nth i x` followed by `nth i` returns `x`. -/
theorem set_then_get (elements : List Int) (_h : 1 ≤ elements.length)
    (ops : List (Nat × Int)) (hops : ∀ op ∈ ops, op.1 < elements.length)
    (i : Nat) (hi : i < elements.length) (x : Int) :
    ∃ t' t2, applyOps (segment_tree elements) ops = some t' ∧
      set_nth t' i x = some t2 ∧ nth t2 i = some x := by
  have hP := nextPow2_pos elements.length
  have hle := le_nextPow2 elements.length
  have hlen := length_segment_tree elements
  have hodd : (segment_tree elements).length % 2 = 1 := by omega
  obtain ⟨t', happ, hlen'⟩ := applyOps_some ops (segment_tree elements) hodd
    (by intro op hop; have := hops op hop; omega)
  have hodd' : t'.length % 2 = 1 := by omega
  have hki : t'.length / 2 + i < t'.length := by omega
  obtain ⟨t2, hset, hlen2, hleaf, -, -⟩ := set_nth_spec t' i x hodd' hki
  refine ⟨t', t2, happ, hset, ?_⟩
  rw [nth, idx, if_pos (by omega),
    show t2.length / 2 + i = t'.length / 2 + i from by omega, hleaf]

/-- Witness for C6 at a concrete input. -/
theorem set_then_get_witness :
    (1 : Nat) ≤ ([3, 1, 4, 1, 5, 9, 2, 6] : List Int).length ∧
      (∀ op ∈ ([(0, 5), (3, -2)] : List (Nat × Int)),
        op.1 < ([3, 1, 4, 1, 5, 9, 2, 6] : List Int).length) ∧
      (2 : Nat) < ([3, 1, 4, 1, 5, 9, 2, 6] : List Int).length ∧
      ∃ t' t2, applyOps (segment_tree [3, 1, 4, 1, 5, 9, 2, 6]) [(0, 5), (3, -2)] = some t' ∧
        set_nth t' 2 42 = some t2 ∧ nth t2 2 = some 42 :=
  ⟨by decide, by decide, by decide,
    set_then_get [3, 1, 4, 1, 5, 9, 2, 6] (by decide) [(0, 5), (3, -2)] (by decide)
      2 (by decide) 42⟩

/-- C7: on a tree built from `n ≥ 1` elements, the single-element range
query `sum i i` equals the point read `nth i` for every `i < n`. -/
theorem point_query_eq_get (elements : List Int) (i : Nat) (hi : i < elements.length) :
    sum (segment_tree elements) i i = nth (segment_tree elements) i := by
  have hP := nextPow2_pos elements.length
  have hle := le_nextPow2 elements.length
  have hlen := length_segment_tree elements
  rw [sum_correct elements i i,
    show min (nextPow2 elements.length - 1) i = i from by omega,
    Finset.Icc_self, Finset.sum_singleton, nth, idx, if_pos (by omega),
    show (segment_tree elements).length / 2 + i = nextPow2 elements.length - 1 + i from by omega,
    getD_segment_tree_leaf elements i (by omega)]

/-- Witness for C7 at a concrete input. -/
theorem point_query_eq_get_witness :
    (4 : Nat) < ([3, 1, 4, 1, 5, 9, 2, 6] : List Int).length ∧
      sum (segment_tree [3, 1, 4, 1, 5, 9, 2, 6]) 4 4
        = nth (segment_tree [3, 1, 4, 1, 5, 9, 2, 6]) 4 :=
  ⟨by decide, point_query_eq_get [3, 1, 4, 1, 5, 9, 2, 6] 4 (by decide)⟩

/-- C8: the recursive descent of `sum` terminates — the fuel-indexed
variant `sumAuxF`, which consumes one unit of fuel per level of recursion
and fails on exhaustion, agrees with `sumAux` whenever the fuel exceeds
the segment width `r - l` (each recursive call strictly shrinks the
segment, and a single-element segment never recurses); in particular
`tree.len() / 2 + 1` units of fuel always suffice for a whole `sum`
query. -/
theorem sum_terminates :
    (∀ (tree : List Int) (fuel i l r first last : Nat), r - l < fuel →
      sumAuxF tree fuel i l r first last = sumAux tree i l r first last)
    ∧ (∀ (tree : List Int) (first last : Nat),
      sumAuxF tree (tree.length / 2 + 1) 0 0 (tree.length / 2) first last
        = sum tree first last) := by
  refine ⟨fun tree fuel i l r first last h =>
    sumAuxF_eq_sumAux tree first last fuel i l r h, ?_⟩
  intro tree first last
  rw [sum, sumAuxF_eq_sumAux tree first last _ 0 0 (tree.length / 2) (by omega)]

/-- Witness for C8 at a concrete input. -/
theorem sum_terminates_witness :
    (7 : Nat) - 0 < 8 ∧
      sumAuxF (segment_tree [3, 1, 4, 1, 5, 9, 2, 6]) 8 0 0 7 1 3
        = sumAux (segment_tree [3, 1, 4, 1, 5, 9, 2, 6]) 0 0 7 1 3 :=
  ⟨by decide, sum_terminates.1 (segment_tree [3, 1, 4, 1, 5, 9, 2, 6]) 8 0 0 7 1 3 (by decide)⟩

/-- C9: on a tree built by `segment_tree`, `set_nth` at a valid element
index `i < n` changes only the leaf slot `N/2 + i` and the slots on the
path from that leaf to the root: every slot that is not an ancestor of the
leaf slot (in the `(k-1)/2` parent sense, the leaf itself included among
its ancestors) is unchanged. -/
theorem set_nth_frame (elements : List Int) (i : Nat) (v : Int)
    (hi : i < elements.length) :
    ∃ t', set_nth (segment_tree elements) i v = some t' ∧
      ∀ j, isAnc j ((segment_tree elements).length / 2 + i) = false →
        t'.getD j 0 = (segment_tree elements).getD j 0 := by
  have hP := nextPow2_pos elements.length
  have hle := le_nextPow2 elements.length
  have hlen := length_segment_tree elements
  obtain ⟨t', h1, -, -, h4, -⟩ := set_nth_spec (segment_tree elements) i v
    (by omega) (by omega)
  exact ⟨t', h1, h4⟩

/-- Witness for C9 at a concrete input. -/
theorem set_nth_frame_witness :
    (2 : Nat) < ([3, 1, 4, 1, 5, 9, 2, 6] : List Int).length ∧
      ∃ t', set_nth (segment_tree [3, 1, 4, 1, 5, 9, 2, 6]) 2 (-42) = some t' ∧
        ∀ j, isAnc j ((segment_tree [3, 1, 4, 1, 5, 9, 2, 6]).length / 2 + 2) = false →
          t'.getD j 0 = (segment_tree [3, 1, 4, 1, 5, 9, 2, 6]).getD j 0 :=
  ⟨by decide, set_nth_frame [3, 1, 4, 1, 5, 9, 2, 6] 2 (-42) (by decide)⟩

/-- C10: on a tree built from `n ≥ 1` elements with padded leaf count `P`,
a query `first ≤ last` whose `last` reaches into the padding region
(`n ≤ last < P`) succeeds and returns the sum of
`elements[first] … elements[n-1]` — the padding leaves hold `0`, so the
query is neither rejected nor does it panic. -/
theorem padding_query (elements : List Int) (first last : Nat)
    (h1 : 1 ≤ elements.length) (_h2 : first ≤ last)
    (h3 : elements.length ≤ last) (h4 : last < nextPow2 elements.length) :
    sum (segment_tree elements) first last
      = some (rangeSum elements first (elements.length - 1)) := by
  rw [sum_correct elements first last,
    show min (nextPow2 elements.length - 1) last = last from by omega, rangeSum]
  have hsub : Finset.Icc first (elements.length - 1) ⊆ Finset.Icc first last :=
    Finset.Icc_subset_Icc_right (by omega)
  have hzero : ∀ x ∈ Finset.Icc first last,
      x ∉ Finset.Icc first (elements.length - 1) → elements.getD x 0 = 0 := by
    intro x hx hx'
    simp only [Finset.mem_Icc] at hx hx'
    exact getD_eq_zero_of_le elements x (by omega)
  exact congrArg some (Finset.sum_subset hsub hzero).symm

/-- Witness for C10 at a concrete input. -/
theorem padding_query_witness :
    (1 : Nat) ≤ ([3, 1, 4, 1, 5] : List Int).length ∧ (3 : Nat) ≤ 6 ∧
      ([3, 1, 4, 1, 5] : List Int).length ≤ 6 ∧
      (6 : Nat) < nextPow2 ([3, 1, 4, 1, 5] : List Int).length ∧
      sum (segment_tree [3, 1, 4, 1, 5]) 3 6
        = some (rangeSum [3, 1, 4, 1, 5] 3 (([3, 1, 4, 1, 5] : List Int).length - 1)) :=
  ⟨by decide, by decide, by decide, by decide,
    padding_query [3, 1, 4, 1, 5] 3 6 (by decide) (by decide) (by decide) (by decide)⟩

end SegTree
